import Mathlib

/-!
# Verification of the cryptanalysis core of `src/crypt.py`

Shallow embedding of the Caesar/monoalphabetic cryptanalysis module.
Characters are Unicode code points (`Nat`) and strings lists of them; Python
floats are modelled by exact rationals, with `Option ℚ` as the score type
where `none` stands for `float('inf')` (the only non-finite float the
program ever produces).

Python's Unicode-aware builtins `str.isalpha`, `str.lower` and
`str.isspace` are modelled faithfully on the Latin-1 range (code points
below 0x100), which covers ASCII and all French accented letters the
program targets; code points at or above 0x100 are outside the modelled
character set and treated as non-alphabetic, non-space, case-fixed.
-/

/-- Code points of the characters of a Lean string literal (UTF-8 source). -/
def strL (str : String) : List Nat := str.toList.map Char.toNat

/-- Models Python `str.isalpha` on one character, faithful on the Latin-1
range: ASCII letters, the Latin-1 letters ª (0xAA), µ (0xB5), º (0xBA),
and the accented range 0xC0–0xFF minus the two operators × (0xD7) and
÷ (0xF7). Code points ≥ 0x100 are outside the modelled range. -/
def pyIsAlpha (c : Nat) : Bool :=
  decide ((65 ≤ c ∧ c ≤ 90) ∨ (97 ≤ c ∧ c ≤ 122) ∨ c = 170 ∨ c = 181 ∨ c = 186 ∨
    (192 ≤ c ∧ c ≤ 255 ∧ c ≠ 215 ∧ c ≠ 247))

/-- Models Python `str.lower` on one character, faithful on the Latin-1
range: A–Z and the accented uppercase À–Þ (except ×) move down by 32,
everything else (including ß, ÿ, µ) is fixed. -/
def pyLower (c : Nat) : Nat :=
  if (65 ≤ c ∧ c ≤ 90) ∨ (192 ≤ c ∧ c ≤ 222 ∧ c ≠ 215) then c + 32 else c

/-- Models the Python `str.split()` whitespace test on one character,
faithful on the Latin-1 range. -/
def pyIsSpace (c : Nat) : Bool :=
  decide (c ∈ [9, 10, 11, 12, 13, 28, 29, 30, 31, 32, 133, 160])

/-- The table `FR_FREQUENCIES`: the French letter-frequency table, as a percentage per
letter, in the dictionary's insertion order (which Python preserves and the
monoalphabetic breaker's stable sort observes); `17.26` is written
`mkRat 1726 100`, and so on. -/
def FR_FREQUENCIES : List (Nat × ℚ) :=
  [(101, mkRat 1726 100), (97, mkRat 823 100), (105, mkRat 724 100),
   (111, mkRat 528 100), (110, mkRat 715 100), (115, mkRat 794 100),
   (114, mkRat 664 100), (116, mkRat 730 100), (117, mkRat 605 100),
   (108, mkRat 534 100), (100, mkRat 367 100), (99, mkRat 315 100),
   (112, mkRat 301 100), (109, mkRat 274 100), (104, mkRat 92 100),
   (103, mkRat 104 100), (102, mkRat 107 100), (98, mkRat 147 100),
   (118, mkRat 113 100), (113, mkRat 89 100), (106, mkRat 89 100),
   (107, mkRat 0 100), (119, mkRat 0 100), (120, mkRat 54 100),
   (121, mkRat 46 100), (122, mkRat 12 100)]

/-- The set `FR_COMMON_WORDS` of common French words. -/
def FR_COMMON_WORDS : List (List Nat) :=
  [strL ("le"), strL ("la"), strL ("de"), strL ("et"), strL ("à"),
   strL ("un"), strL ("une"), strL ("les"), strL ("des"), strL ("en"),
   strL ("par"), strL ("pour"), strL ("dans"), strL ("avec"), strL ("sur"),
   strL ("que"), strL ("qui"), strL ("est"), strL ("il"), strL ("elle"),
   strL ("vous"), strL ("nous"), strL ("je"), strL ("tu"), strL ("ce"),
   strL ("au"), strL ("du"), strL ("se"), strL ("pas"), strL ("plus"),
   strL ("bien"), strL ("peu"), strL ("fait")]

/-- The score type: a Python float as produced by this program — either a
finite value (exact rational) or `float('inf')`, modelled by `none`. -/
abbrev Score := Option ℚ

/-- One character of `caesar_decrypt`: alphabetic characters map to
`chr(ord('a') + (ord(c) - ord('a') - shift) % 26)` (Python `%` on a
positive modulus, i.e. `Int.emod`), everything else passes through. -/
def caesarChar (shift : Int) (c : Nat) : Nat :=
  if pyIsAlpha c then (97 + ((c : Int) - 97 - shift) % 26).toNat else c

/-- The method `CryptoAnalyzer.caesar_decrypt`. -/
def caesar_decrypt (text : List Nat) (shift : Int) : List Nat :=
  text.map (caesarChar shift)

/-- The method `CryptoAnalyzer.monoalpha_decrypt`: `key.get(c, c)` per character,
with the key as an association list with distinct keys. -/
def monoalpha_decrypt (text : List Nat) (key : List (Nat × Nat)) : List Nat :=
  text.map (fun c => ((key.lookup c).getD c))

/-- Python `string.ascii_lowercase` as code points. -/
def asciiLowercase : List Nat := (List.range 26).map (fun k => 97 + k)

/-- Python `FR_FREQUENCIES.get(letter, 0)`. -/
def freqOf (c : Nat) : ℚ := (FR_FREQUENCIES.lookup c).getD 0

/-- One term of the chi-squared accumulation for a given letter over the
letters-only view: `(observed - expected)^2 / expected` when
`expected > 0`, and no contribution otherwise. -/
def chiTerm (text_clean : List Nat) (letter : Nat) : ℚ :=
  let observed : ℚ := text_clean.count letter
  let expected : ℚ := freqOf letter / 100 * text_clean.length
  if 0 < expected then (observed - expected) ^ 2 / expected else 0

/-- The method `CryptoAnalyzer.chi_squared_score`: filter to the alphabetic
characters; `float('inf')` (`none`) if none remain, else the chi-squared
sum over the 26 ASCII letters. -/
def chi_squared_score (text : List Nat) : Score :=
  let text_clean := text.filter pyIsAlpha
  if text_clean = [] then none
  else some ((asciiLowercase.map (chiTerm text_clean)).sum)

/-- Helper for `str.split()`: accumulates the current word (reversed). -/
def pySplitAux : List Nat → List Nat → List (List Nat)
  | [], acc => if acc = [] then [] else [acc.reverse]
  | c :: cs, acc =>
    if pyIsSpace c then
      if acc = [] then pySplitAux cs [] else acc.reverse :: pySplitAux cs []
    else pySplitAux cs (c :: acc)

/-- Python `str.split()` with no argument: split on runs of whitespace,
discarding empty tokens. -/
def pySplit (text : List Nat) : List (List Nat) := pySplitAux text []

/-- The stripped, lowercased tokens of `word_score`:
`[''.join(c for c in w if c.isalpha()) for w in text.lower().split()]`. -/
def words_clean (text : List Nat) : List (List Nat) :=
  (pySplit (text.map pyLower)).map (fun w => w.filter pyIsAlpha)

/-- The method `CryptoAnalyzer.word_score`: the fraction of tokens that are common
French words of length greater than 2; `0` when there are no tokens. -/
def word_score (text : List Nat) : ℚ :=
  let wc := words_clean text
  if wc = [] then 0
  else ((wc.countP (fun w => decide (w ∈ FR_COMMON_WORDS) && decide (2 < w.length)) : ℚ)) /
    (wc.length : ℚ)

/-- The method `CryptoAnalyzer.combined_score`: `chi2 - word_score * 50`, where
`inf - finite = inf`. -/
def combined_score (text : List Nat) : Score :=
  match chi_squared_score text with
  | none => none
  | some chi2 => some (chi2 - word_score text * 50)

/-- Python `<` on the float scores this program produces: `inf` is greater
than every finite value and not less than itself. -/
def scoreLT : Score → Score → Bool
  | some x, some y => decide (x < y)
  | some _, none => true
  | none, _ => false

/-- Python `min(results, key=...)`: fold over the tail keeping the current
best, replacing it only when the new key is strictly smaller — so the
first element attaining the minimal key wins. -/
def selectMin {α : Type} (key : α → Score) : α → List α → α
  | best, [] => best
  | best, x :: xs => selectMin key (if scoreLT (key x) (key best) then x else best) xs

/-- One candidate of the `break_caesar` loop body: the triple
`(shift, decrypted, score)`. -/
def caesarCandidate (encrypted : List Nat) (shift : Nat) : Int × List Nat × Score :=
  let decrypted := caesar_decrypt encrypted (shift : Int)
  let score := combined_score decrypted
  ((shift : Int), decrypted, score)

/-- The method `CryptoAnalyzer.break_caesar` composed with the constructor: the input
is lowercased once (`self.encrypted`), all 26 shifts are tried in
increasing order, and the minimum-score triple is selected. -/
def break_caesar (text : List Nat) : Int × List Nat × Score :=
  let encrypted := text.map pyLower
  let results := (List.range 26).map (caesarCandidate encrypted)
  match results with
  | [] => ((0 : Int), ([] : List Nat), (none : Score))
  | r :: rs => selectMin (fun c => c.2.2) r rs

/-- The field `self.clean_text`: the alphabetic characters of the lowercased input. -/
def clean_text (text : List Nat) : List Nat :=
  (text.map pyLower).filter pyIsAlpha

/-- The distinct elements of a list in first-occurrence order — the key
order of `Counter(...)` (Python dicts preserve insertion order). -/
def firstOccs (l : List Nat) : List Nat :=
  l.foldl (fun acc c => if c ∈ acc then acc else acc ++ [c]) []

/-- Python `Counter(l).items()`: each distinct element with its count, in
first-occurrence order. -/
def counterItems (l : List Nat) : List (Nat × Nat) :=
  (firstOccs l).map (fun c => (c, l.count c))

/-- Stable insertion into a list sorted by strictly descending key: the new
element goes after every element whose key is at least its own. -/
def insertByDesc {α β : Type} [LinearOrder β] (key : α → β) (x : α) :
    List α → List α
  | [] => [x]
  | y :: ys => if key x ≤ key y then y :: insertByDesc key x ys else x :: y :: ys

/-- Python `sorted(l, key=key, reverse=True)`: the stable descending sort —
keys are nonincreasing and elements with equal keys keep their original
relative order. -/
def sortByDesc {α β : Type} [LinearOrder β] (key : α → β) (l : List α) : List α :=
  l.foldl (fun acc x => insertByDesc key x acc) []

/-- The list `sorted(Counter(self.clean_text).items(), key=lambda x: x[1], reverse=True)`. -/
def sorted_encrypted (text : List Nat) : List (Nat × Nat) :=
  sortByDesc Prod.snd (counterItems (clean_text text))

/-- The list `sorted(FR_FREQUENCIES.items(), key=lambda x: x[1], reverse=True)`. -/
def sorted_french : List (Nat × ℚ) :=
  sortByDesc Prod.snd FR_FREQUENCIES

/-- The substitution key built by `break_monoalpha_simple`: the two sorted
lists zipped positionally (the zip stops at the shorter list), keeping the
letters only. The keys are distinct, so the association list is the dict. -/
def subKey (text : List Nat) : List (Nat × Nat) :=
  ((sorted_encrypted text).zip sorted_french).map (fun p => (p.1.1, p.2.1))

/-- The method `CryptoAnalyzer.break_monoalpha_simple` composed with the constructor:
decrypt the lowercased input under the frequency-rank key and score it. -/
def break_monoalpha_simple (text : List Nat) : List Nat × Score :=
  let decrypted := monoalpha_decrypt (text.map pyLower) (subKey text)
  (decrypted, combined_score decrypted)

/-! ## Helper lemmas -/

theorem caesarChar_of_alpha (shift : Int) (c : Nat) (h : pyIsAlpha c = true) :
    caesarChar shift c = (97 + ((c : Int) - 97 - shift) % 26).toNat := by
  simp [caesarChar, h]

theorem caesarChar_of_not_alpha (shift : Int) (c : Nat) (h : pyIsAlpha c = false) :
    caesarChar shift c = c := by
  simp [caesarChar, h]

theorem caesarChar_range (shift : Int) (c : Nat) (h : pyIsAlpha c = true) :
    97 ≤ caesarChar shift c ∧ caesarChar shift c ≤ 122 := by
  rw [caesarChar_of_alpha shift c h]
  omega

theorem getD_map_fn (f : Nat → Nat) (l : List Nat) (i : Nat) (hi : i < l.length) :
    (l.map f).getD i 0 = f (l.getD i 0) := by
  have hi2 : i < (l.map f).length := by simpa using hi
  rw [List.getD_eq_getElem (l.map f) 0 hi2, List.getD_eq_getElem l 0 hi, List.getElem_map]

theorem caesarChar_roundtrip (s : Int) (c : Nat) (hc : 97 ≤ c ∧ c ≤ 122) :
    caesarChar s (caesarChar (-s) c) = c := by
  have halpha : pyIsAlpha c = true := by
    unfold pyIsAlpha; rw [decide_eq_true_eq]; tauto
  rw [caesarChar_of_alpha (-s) c halpha]
  have hb : 97 ≤ (97 + ((c : Int) - 97 - (-s)) % 26).toNat ∧
      (97 + ((c : Int) - 97 - (-s)) % 26).toNat ≤ 122 := by omega
  have halpha2 : pyIsAlpha ((97 + ((c : Int) - 97 - (-s)) % 26).toNat) = true := by
    unfold pyIsAlpha; rw [decide_eq_true_eq]; tauto
  rw [caesarChar_of_alpha s _ halpha2]
  omega

theorem chiTerm_nonneg (tc : List Nat) (letter : Nat) : 0 ≤ chiTerm tc letter := by
  simp only [chiTerm]
  split
  · rename_i hpos
    exact div_nonneg (sq_nonneg _) (le_of_lt hpos)
  · exact le_refl 0

/-! ## Claim theorems -/

/-- C6: for every input text, every integer shift, and every substitution
key, `caesar_decrypt` and `monoalpha_decrypt` preserve the length of the
text exactly. -/
theorem decrypt_length_preserved (text : List Nat) (shift : Int) (key : List (Nat × Nat)) :
    (caesar_decrypt text shift).length = text.length ∧
    (monoalpha_decrypt text key).length = text.length := by
  constructor <;> simp [caesar_decrypt, monoalpha_decrypt]

/-- C7: `caesar_decrypt` is 26-periodic in the shift — any integer shift,
negative or above 25, is normalized modulo 26. -/
theorem caesar_shift_modulo (text : List Nat) (shift : Int) :
    caesar_decrypt text shift = caesar_decrypt text (shift + 26) ∧
    caesar_decrypt text shift = caesar_decrypt text (shift - 26) := by
  constructor <;>
  · unfold caesar_decrypt
    apply List.map_congr_left
    intro c _
    unfold caesarChar
    split
    · congr 1
      omega
    · rfl

/-- C9: `break_caesar` is deterministic — it is a pure function of the
ciphertext, so two calls on the same input return the identical triple. -/
theorem break_caesar_deterministic (text : List Nat) :
    break_caesar text = break_caesar text := rfl

/-- C10: at every position whose input character satisfies the alphabetic
predicate, the output of `caesar_decrypt` is the lowercase ASCII letter
`chr(ord('a') + (ord(c) - ord('a') - shift) % 26)` — computed from the raw
code point, so an uppercase letter lands on a lowercase one. -/
theorem caesar_alpha_char_formula (text : List Nat) (shift : Int) (i : Nat)
    (hi : i < text.length) (h : pyIsAlpha (text.getD i 0) = true) :
    (caesar_decrypt text shift).getD i 0 =
      (97 + (((text.getD i 0 : Nat) : Int) - 97 - shift) % 26).toNat ∧
    97 ≤ (caesar_decrypt text shift).getD i 0 ∧
    (caesar_decrypt text shift).getD i 0 ≤ 122 := by
  unfold caesar_decrypt
  rw [getD_map_fn _ _ _ hi]
  exact ⟨caesarChar_of_alpha shift _ h, caesarChar_range shift _ h⟩

/-- C10 witness: the uppercase letter `A` under shift 1 maps to the
lowercase `t` dictated by the raw code-point arithmetic, not to a shifted
uppercase letter. -/
theorem caesar_alpha_char_formula_witness :
    (caesar_decrypt (strL ("A")) 1).getD 0 0 =
      (97 + (((strL ("A")).getD 0 0 : Int) - 97 - 1) % 26).toNat ∧
    97 ≤ (caesar_decrypt (strL ("A")) 1).getD 0 0 ∧
    (caesar_decrypt (strL ("A")) 1).getD 0 0 ≤ 122 :=
  caesar_alpha_char_formula (strL ("A")) 1 0 (by decide) (by decide)

/-- C3: for text made of lowercase ASCII letters and pass-through
(non-alphabetic) characters, decrypting with `-s` and then with `s` is the
identity, for every shift `s` in `[0, 26)`. -/
theorem caesar_roundtrip (text : List Nat) (s : Int) (_hs : 0 ≤ s ∧ s < 26)
    (h : ∀ c ∈ text, (97 ≤ c ∧ c ≤ 122) ∨ pyIsAlpha c = false) :
    caesar_decrypt (caesar_decrypt text (-s)) s = text := by
  unfold caesar_decrypt
  rw [List.map_map]
  induction text with
  | nil => rfl
  | cons a t ih =>
    have ha := h a (List.mem_cons_self a t)
    have ht := ih (fun c hc => h c (List.mem_cons_of_mem a hc))
    simp only [List.map_cons, Function.comp_apply, ht, List.cons.injEq, and_true]
    rcases ha with hlet | hnal
    · exact caesarChar_roundtrip s a hlet
    · rw [caesarChar_of_not_alpha (-s) a hnal, caesarChar_of_not_alpha s a hnal]

/-- C3 witness: the round trip at shift 3 on a concrete lowercase text with
spaces and punctuation. -/
theorem caesar_roundtrip_witness :
    ((0 : Int) ≤ 3 ∧ (3 : Int) < 26) ∧
    caesar_decrypt (caesar_decrypt (strL ("abc z!")) (-3)) 3 = strL ("abc z!") :=
  ⟨⟨by norm_num, by norm_num⟩,
   caesar_roundtrip (strL ("abc z!")) 3 ⟨by norm_num, by norm_num⟩ (by decide)⟩

/-- C1 counterexample: the accented letter é (code point 233) is outside
unaccented ASCII a–z, yet it is not passed through unchanged by
`caesar_decrypt` (Python's `isalpha` accepts it, so the shift arithmetic
maps it into a–z), and it is not excluded from the letters-only view used
by `chi_squared_score`. -/
theorem caesar_accent_counterexample :
    caesar_decrypt (strL ("é")) 1 ≠ strL ("é") ∧
    (strL ("é")).filter pyIsAlpha ≠ ([] : List Nat) := by
  constructor <;> decide

/-- C1 amended: characters rejected by Python's `isalpha` pass through
`caesar_decrypt` unchanged and contribute nothing to the chi-squared
statistics; but accented letters such as é (233) satisfy `isalpha`, so
they are shifted into ASCII a–z and do enter the letters-only view. -/
theorem caesar_passthrough_amended (text : List Nat) (shift : Int) (c : Nat) (i : Nat) :
    (pyIsAlpha (text.getD i 0) = false →
      (caesar_decrypt text shift).getD i 0 = text.getD i 0) ∧
    (pyIsAlpha c = false →
      chi_squared_score (text ++ [c]) = chi_squared_score text) ∧
    pyIsAlpha 233 = true ∧ caesar_decrypt (strL ("é")) 1 = strL ("f") := by
  refine ⟨?_, ?_, by decide, by decide⟩
  · intro h
    by_cases hi : i < text.length
    · rw [caesar_decrypt, getD_map_fn _ _ _ hi, caesarChar_of_not_alpha _ _ h]
    · have h1 : text.getD i 0 = 0 := List.getD_eq_default _ _ (by omega)
      have h2 : (caesar_decrypt text shift).getD i 0 = 0 :=
        List.getD_eq_default _ _ (by simp [caesar_decrypt]; omega)
      rw [h1, h2]
  · intro h
    have hf : (text ++ [c]).filter pyIsAlpha = text.filter pyIsAlpha := by
      simp [List.filter_append, h]
    simp only [chi_squared_score, hf]

/-- C1 amended witness: at the space in `"a b"` the decryption is the
identity, and appending a space to `"ab"` leaves the chi-squared score
unchanged. -/
theorem caesar_passthrough_amended_witness :
    (caesar_decrypt (strL ("a b")) 2).getD 1 0 = (strL ("a b")).getD 1 0 ∧
    chi_squared_score (strL ("ab") ++ [32]) = chi_squared_score (strL ("ab")) :=
  ⟨(caesar_passthrough_amended (strL ("a b")) 2 32 1).1 (by decide),
   (caesar_passthrough_amended (strL ("ab")) 2 32 1).2.1 (by decide)⟩

/-- C4: `chi_squared_score` is total — it returns infinity (`none`) exactly
when the letters-only view of the input is empty, and otherwise a finite
value that is nonnegative. -/
theorem chi_squared_total (text : List Nat) :
    (chi_squared_score text = none ↔ text.filter pyIsAlpha = []) ∧
    (text.filter pyIsAlpha ≠ [] →
      ∃ q : ℚ, chi_squared_score text = some q ∧ 0 ≤ q) := by
  by_cases h : text.filter pyIsAlpha = []
  · simp [chi_squared_score, h]
  · constructor
    · simp [chi_squared_score, h]
    · intro _
      refine ⟨(asciiLowercase.map (chiTerm (text.filter pyIsAlpha))).sum, ?_, ?_⟩
      · simp [chi_squared_score, h]
      · apply List.sum_nonneg
        intro x hx
        obtain ⟨letter, _, rfl⟩ := List.mem_map.mp hx
        exact chiTerm_nonneg _ letter

/-- C4 witness: the text `"e!"` has a non-empty letters view and receives a
finite nonnegative score. -/
theorem chi_squared_total_witness :
    (strL ("e!")).filter pyIsAlpha ≠ [] ∧
    ∃ q : ℚ, chi_squared_score (strL ("e!")) = some q ∧ 0 ≤ q :=
  ⟨by decide, (chi_squared_total (strL ("e!"))).2 (by decide)⟩

/-- C8: `word_score` always lies in `[0, 1]`; it is `0` when splitting on
whitespace yields no tokens; and with tokens present it is the number of
stripped lowercased tokens that are common French words of length greater
than 2, divided by the token count. -/
theorem word_score_bounds (text : List Nat) :
    (0 ≤ word_score text ∧ word_score text ≤ 1) ∧
    (words_clean text = [] → word_score text = 0) ∧
    (words_clean text ≠ [] →
      word_score text * ((words_clean text).length : ℚ) =
        ((words_clean text).countP
          (fun w => decide (w ∈ FR_COMMON_WORDS) && decide (2 < w.length)) : ℚ)) := by
  by_cases h : words_clean text = []
  · refine ⟨⟨?_, ?_⟩, fun _ => ?_, fun hne => absurd h hne⟩ <;>
      simp [word_score, h]
  · have hlen : 0 < ((words_clean text).length : ℚ) := by
      have := List.length_pos.mpr h
      exact_mod_cast this
    have hws : word_score text =
        ((words_clean text).countP
          (fun w => decide (w ∈ FR_COMMON_WORDS) && decide (2 < w.length)) : ℚ) /
          ((words_clean text).length : ℚ) := by
      simp [word_score, h]
    refine ⟨⟨?_, ?_⟩, fun he => absurd he h, fun _ => ?_⟩
    · rw [hws]
      exact div_nonneg (by positivity) (le_of_lt hlen)
    · rw [hws, div_le_one hlen]
      exact_mod_cast List.countP_le_length _
    · rw [hws, div_mul_cancel₀ _ (ne_of_gt hlen)]

/-- C8 witness: `"pour de"` has two tokens, of which only `"pour"` counts
(in the common-word set and longer than 2 letters). -/
theorem word_score_bounds_witness :
    words_clean (strL ("pour de")) ≠ [] ∧
    word_score (strL ("pour de")) * ((words_clean (strL ("pour de"))).length : ℚ) =
      ((words_clean (strL ("pour de"))).countP
        (fun w => decide (w ∈ FR_COMMON_WORDS) && decide (2 < w.length)) : ℚ) :=
  ⟨by decide, (word_score_bounds (strL ("pour de"))).2.2 (by decide)⟩

/-! ## Order lemmas for the score comparison -/

theorem scoreLT_irrefl (a : Score) : scoreLT a a = false := by
  cases a with
  | none => rfl
  | some x => simp [scoreLT]

theorem scoreLT_asymm {a b : Score} (h : scoreLT a b = true) : scoreLT b a = false := by
  cases a <;> cases b <;> simp_all [scoreLT]
  exact le_of_lt h

theorem scoreLT_le_lt {x s b : Score} (h1 : scoreLT x s = false)
    (h2 : scoreLT x b = true) : scoreLT s b = true := by
  cases x <;> cases s <;> cases b <;> simp_all [scoreLT]
  exact lt_of_le_of_lt h1 h2

theorem scoreLT_lt_le {s b x : Score} (h1 : scoreLT s b = true)
    (h2 : scoreLT x b = false) : scoreLT s x = true := by
  cases s <;> cases b <;> cases x <;> simp_all [scoreLT]
  exact lt_of_lt_of_le h1 h2

/-- The function `selectMin` returns the first element attaining the minimal key: the
input list splits around the returned element, every element strictly
before it has a strictly greater key, and no element has a strictly
smaller key. -/
theorem selectMin_split {α : Type} (key : α → Score) (b : α) (l : List α) :
    ∃ l1 l2, b :: l = l1 ++ selectMin key b l :: l2 ∧
      (∀ x ∈ l1, scoreLT (key (selectMin key b l)) (key x) = true) ∧
      (∀ x ∈ b :: l, scoreLT (key x) (key (selectMin key b l)) = false) := by
  induction l generalizing b with
  | nil =>
    refine ⟨[], [], rfl, by simp, ?_⟩
    intro x hx
    rw [List.mem_singleton.mp hx]
    exact scoreLT_irrefl _
  | cons x xs ih =>
    have hsel : selectMin key b (x :: xs) =
        selectMin key (if scoreLT (key x) (key b) then x else b) xs := rfl
    by_cases hxb : scoreLT (key x) (key b) = true
    · rw [hsel, if_pos hxb]
      obtain ⟨l1, l2, heq, hbef, hmin⟩ := ih x
      refine ⟨b :: l1, l2, ?_, ?_, ?_⟩
      · rw [List.cons_append, ← heq]
      · intro y hy
        rcases List.mem_cons.mp hy with hyb | hy1
        · subst hyb
          exact scoreLT_le_lt (hmin x (List.mem_cons_self x xs)) hxb
        · exact hbef y hy1
      · intro y hy
        rcases List.mem_cons.mp hy with hyb | hy1
        · subst hyb
          exact scoreLT_asymm (scoreLT_le_lt (hmin x (List.mem_cons_self x xs)) hxb)
        · exact hmin y hy1
    · rw [hsel, if_neg hxb]
      have hxb' : scoreLT (key x) (key b) = false := by
        simpa using hxb
      obtain ⟨l1, l2, heq, hbef, hmin⟩ := ih b
      cases l1 with
      | nil =>
        simp only [List.nil_append] at heq
        have hb : b = selectMin key b xs := (List.cons.injEq _ _ _ _).mp heq |>.1
        have hl2 : xs = l2 := (List.cons.injEq _ _ _ _).mp heq |>.2
        refine ⟨[], x :: xs, ?_, by simp, ?_⟩
        · rw [List.nil_append, ← hb]
        · intro y hy
          rcases List.mem_cons.mp hy with hyb | hy1
          · subst hyb
            rw [← hb]
            exact scoreLT_irrefl _
          · rcases List.mem_cons.mp hy1 with hyx | hyxs
            · subst hyx
              rw [← hb]
              exact hxb'
            · exact hmin y (List.mem_cons_of_mem b hyxs)
      | cons z l1t =>
        rw [List.cons_append] at heq
        have hz : b = z := ((List.cons.injEq _ _ _ _).mp heq).1
        have hxs : xs = l1t ++ selectMin key b xs :: l2 :=
          ((List.cons.injEq _ _ _ _).mp heq).2
        have hselb : scoreLT (key (selectMin key b xs)) (key b) = true := by
          apply hbef
          rw [hz]
          exact List.mem_cons_self z l1t
        have hselx : scoreLT (key (selectMin key b xs)) (key x) = true :=
          scoreLT_lt_le hselb hxb'
        refine ⟨b :: x :: l1t, l2, ?_, ?_, ?_⟩
        · simp only [List.cons_append]
          rw [← hxs]
        · intro y hy
          rcases List.mem_cons.mp hy with hyb | hy1
          · subst hyb; exact hselb
          · rcases List.mem_cons.mp hy1 with hyx | hyt
            · subst hyx; exact hselx
            · apply hbef
              exact List.mem_cons_of_mem z hyt
        · intro y hy
          rcases List.mem_cons.mp hy with hyb | hy1
          · subst hyb; exact scoreLT_asymm hselb
          · rcases List.mem_cons.mp hy1 with hyx | hyxs
            · subst hyx; exact scoreLT_asymm hselx
            · exact hmin y (List.mem_cons_of_mem b hyxs)

theorem getElem_append_cons {α : Type} (l1 l2 : List α) (x : α)
    (h : l1.length < (l1 ++ x :: l2).length) :
    (l1 ++ x :: l2)[l1.length] = x := by
  induction l1 with
  | nil => rfl
  | cons a t ih =>
    simp only [List.cons_append, List.length_cons, List.getElem_cons_succ]
    exact ih (by simp)

/-- The default triple used to state positional facts about the candidate
list (never actually selected: the list always has 26 elements). -/
def defaultCand : Int × List Nat × Score := ((0 : Int), ([] : List Nat), (none : Score))

theorem candList_getD (enc : List Nat) (i : Nat) (hi : i < 26) :
    (((List.range 26).map (caesarCandidate enc)).getD i defaultCand) =
      caesarCandidate enc i := by
  have hlen : i < ((List.range 26).map (caesarCandidate enc)).length := by
    simpa using hi
  rw [List.getD_eq_getElem _ defaultCand hlen, List.getElem_map, List.getElem_range]

/-- C2: `break_caesar` tries the shifts `0..25` in increasing order and
returns the candidate triple whose score is minimal, ties going to the
lowest shift (every strictly smaller shift scores strictly worse); on the
empty ciphertext it returns shift 0 with score infinity, all 26 candidates
scoring infinity. -/
theorem break_caesar_min_spec (t : List Nat) :
    (∃ s : Nat, s < 26 ∧
      break_caesar t = caesarCandidate (t.map pyLower) s ∧
      (∀ s2, s2 < 26 →
        scoreLT (caesarCandidate (t.map pyLower) s2).2.2 (break_caesar t).2.2 = false) ∧
      (∀ s2, s2 < s →
        scoreLT (break_caesar t).2.2 (caesarCandidate (t.map pyLower) s2).2.2 = true)) ∧
    break_caesar ([] : List Nat) = ((0 : Int), ([] : List Nat), (none : Score)) ∧
    (∀ s2, s2 < 26 → (caesarCandidate (([] : List Nat).map pyLower) s2).2.2 = none) := by
  refine ⟨?_, by decide, by decide⟩
  have h0 : List.range 26 = 0 :: List.range' 1 25 := by decide
  have hbc : break_caesar t =
      selectMin (fun c => c.2.2) (caesarCandidate (t.map pyLower) 0)
        ((List.range' 1 25).map (caesarCandidate (t.map pyLower))) := by
    simp only [break_caesar, h0, List.map_cons]
  obtain ⟨l1, l2, heq, hbef, hmin⟩ :=
    selectMin_split (fun c => c.2.2) (caesarCandidate (t.map pyLower) 0)
      ((List.range' 1 25).map (caesarCandidate (t.map pyLower)))
  have hfull : caesarCandidate (t.map pyLower) 0 ::
      (List.range' 1 25).map (caesarCandidate (t.map pyLower)) =
      (List.range 26).map (caesarCandidate (t.map pyLower)) := by
    rw [h0, List.map_cons]
  rw [hfull] at heq
  have hlen : l1.length + 1 + l2.length = 26 := by
    have hc := congrArg List.length heq
    simp [List.length_append] at hc
    omega
  have hs26 : l1.length < 26 := by omega
  have hsel : break_caesar t = caesarCandidate (t.map pyLower) l1.length := by
    rw [hbc]
    have h1 : ((List.range 26).map (caesarCandidate (t.map pyLower))).getD
        l1.length defaultCand =
        selectMin (fun c => c.2.2) (caesarCandidate (t.map pyLower) 0)
          ((List.range' 1 25).map (caesarCandidate (t.map pyLower))) := by
      rw [heq]
      have hb : l1.length < (l1 ++ selectMin (fun c => c.2.2)
          (caesarCandidate (t.map pyLower) 0)
          ((List.range' 1 25).map (caesarCandidate (t.map pyLower))) :: l2).length := by
        simp [List.length_append]
      rw [List.getD_eq_getElem _ defaultCand hb]
      exact getElem_append_cons _ _ _ hb
    rw [← h1, candList_getD _ _ hs26]
  refine ⟨l1.length, hs26, hsel, ?_, ?_⟩
  · intro s2 hs2
    have hmem : caesarCandidate (t.map pyLower) s2 ∈
        caesarCandidate (t.map pyLower) 0 ::
          (List.range' 1 25).map (caesarCandidate (t.map pyLower)) := by
      rw [hfull]
      exact List.mem_map.mpr ⟨s2, List.mem_range.mpr hs2, rfl⟩
    have := hmin _ hmem
    rw [hbc]
    exact this
  · intro s2 hs2
    have hs2' : s2 < 26 := by omega
    have hgetl1 : l1.getD s2 defaultCand = caesarCandidate (t.map pyLower) s2 := by
      have h2 : ((List.range 26).map (caesarCandidate (t.map pyLower))).getD
          s2 defaultCand = l1.getD s2 defaultCand := by
        rw [heq]
        exact List.getD_append _ _ _ _ hs2
      rw [← h2, candList_getD _ _ hs2']
    have hmem : caesarCandidate (t.map pyLower) s2 ∈ l1 := by
      rw [← hgetl1]
      rw [List.getD_eq_getElem _ defaultCand hs2]
      exact List.getElem_mem _
    have := hbef _ hmem
    rw [hbc]
    exact this

/-- C2 witness: on the concrete ciphertext `"ab"`, the score selected by
`break_caesar` is not beaten by the candidate at shift 5. -/
theorem break_caesar_min_spec_witness :
    scoreLT (caesarCandidate ((strL ("ab")).map pyLower) 5).2.2
      (break_caesar (strL ("ab"))).2.2 = false := by
  obtain ⟨s, hs, hbc, hmin, hbef⟩ := (break_caesar_min_spec (strL ("ab"))).1
  exact hmin 5 (by norm_num)

/-! ## Length lemmas for the stable descending sort -/

theorem insertByDesc_length {α β : Type} [LinearOrder β] (key : α → β) (x : α)
    (l : List α) : (insertByDesc key x l).length = l.length + 1 := by
  induction l with
  | nil => rfl
  | cons y ys ih =>
    simp only [insertByDesc]
    split <;> simp [ih]

theorem foldl_insertByDesc_length {α β : Type} [LinearOrder β] (key : α → β)
    (l acc : List α) :
    (l.foldl (fun a x => insertByDesc key x a) acc).length = acc.length + l.length := by
  induction l generalizing acc with
  | nil => simp
  | cons x xs ih =>
    simp only [List.foldl_cons, List.length_cons]
    rw [ih (insertByDesc key x acc), insertByDesc_length]
    omega

theorem sortByDesc_length {α β : Type} [LinearOrder β] (key : α → β) (l : List α) :
    (sortByDesc key l).length = l.length := by
  simp [sortByDesc, foldl_insertByDesc_length]

theorem sorted_encrypted_length (t : List Nat) :
    (sorted_encrypted t).length = (firstOccs (clean_text t)).length := by
  simp [sorted_encrypted, sortByDesc_length, counterItems]

theorem sorted_french_length : sorted_french.length = 26 := by
  simp [sorted_french, sortByDesc_length, FR_FREQUENCIES]

theorem subKey_length (t : List Nat) :
    (subKey t).length = min (firstOccs (clean_text t)).length 26 := by
  simp [subKey, sorted_encrypted_length, sorted_french_length]

/-- C5: the substitution key of `break_monoalpha_simple` pairs the observed
letters sorted by descending count with the reference letters sorted by
descending frequency, positionally; with fewer than 26 distinct observed
letters exactly that many pairs are formed; and any character of the
(lowercased) ciphertext without a key entry passes through the decryption
unchanged. -/
theorem break_monoalpha_key_pairing (t : List Nat) (n i : Nat)
    (hn : n < (subKey t).length) (hi : i < (t.map pyLower).length) :
    ((subKey t).getD n (0, 0) =
      (((sorted_encrypted t).getD n (0, 0)).1, (sorted_french.getD n (0, (0 : ℚ))).1)) ∧
    ((firstOccs (clean_text t)).length < 26 →
      (subKey t).length = (firstOccs (clean_text t)).length) ∧
    ((subKey t).lookup ((t.map pyLower).getD i 0) = none →
      (break_monoalpha_simple t).1.getD i 0 = (t.map pyLower).getD i 0) := by
  refine ⟨?_, ?_, ?_⟩
  · have hmin := hn
    rw [subKey_length] at hmin
    have hnse : n < (sorted_encrypted t).length := by
      rw [sorted_encrypted_length]; omega
    have hnsf : n < sorted_french.length := by
      rw [sorted_french_length]; omega
    have hnzip : n < ((sorted_encrypted t).zip sorted_french).length := by
      rw [List.length_zip]; omega
    rw [List.getD_eq_getElem _ _ hn, List.getD_eq_getElem _ _ hnse,
      List.getD_eq_getElem _ _ hnsf]
    simp only [subKey, List.getElem_map, List.getElem_zip]
  · intro h26
    rw [subKey_length]
    omega
  · intro hlook
    show (monoalpha_decrypt (t.map pyLower) (subKey t)).getD i 0 = _
    rw [monoalpha_decrypt, getD_map_fn _ _ _ hi, hlook]
    rfl

/-- C5 witness: for the ciphertext `"aab?c"` (counts a:2, b:1, c:1) the
second key pair maps b to a, the key has exactly as many pairs as distinct
observed letters (3), and the `?` at position 3 passes through. -/
theorem break_monoalpha_key_pairing_witness :
    ((subKey (strL ("aab?c"))).getD 1 (0, 0) =
      (((sorted_encrypted (strL ("aab?c"))).getD 1 (0, 0)).1,
        (sorted_french.getD 1 (0, (0 : ℚ))).1)) ∧
    (subKey (strL ("aab?c"))).length =
      (firstOccs (clean_text (strL ("aab?c")))).length ∧
    (break_monoalpha_simple (strL ("aab?c"))).1.getD 3 0 =
      ((strL ("aab?c")).map pyLower).getD 3 0 := by
  have h := break_monoalpha_key_pairing (strL ("aab?c")) 1 3 (by decide) (by decide)
  exact ⟨h.1, h.2.1 (by decide), h.2.2 (by decide)⟩
